import Mathlib

/-!
Verification of the race-telemetry reconstruction and playback engine of
`src/client/src/components/TrackView.jsx` against its specification.

The JavaScript code is shallowly embedded: JS numbers become `ℚ` (the
arithmetic performed here — additions, multiplications by small constants,
`Math.round` — is exact on the values of interest), possibly-absent fields
become `Option`, the insertion-ordered JS `Map` and plain objects become
association lists with in-place overwrite, and the sequential chunk-fetch
loop becomes a fold over a list of fetch outcomes.
-/

namespace F1

/-- A raw telemetry record as delivered inside a chunk's `telemetry` array.
Fields that the code may find absent (`undefined`) are `Option`s. -/
structure Point where
  driver : Option String
  x : Option ℚ
  y : Option ℚ
  lap : ℤ
  time_in_lap : ℚ
  cumulative_time : ℚ
  speed : Option ℚ
  compound : Option String
  pos_rank : Option ℤ
  deriving Repr, DecidableEq

/-- The per-driver snapshot stored in `frame.positions[point.driver]`
(TrackView.jsx lines 160–167). -/
structure Snapshot where
  x : Option ℚ
  y : Option ℚ
  pos_rank : Option ℤ
  compound : Option String
  speed : Option ℚ
  lap : ℤ
  deriving Repr, DecidableEq

/-- The snapshot the synthesizer extracts from a point (lines 160–167). -/
def Point.snapshot (p : Point) : Snapshot :=
  ⟨p.x, p.y, p.pos_rank, p.compound, p.speed, p.lap⟩

/-- JS `Math.round`: round half toward positive infinity. -/
def jsRound (q : ℚ) : ℤ := ⌊q + 1 / 2⌋

/-- A synthesized frame (lines 151–156): the quantized timestamp
(`cumulative_time` after rounding), lap bookkeeping from the first sample
that created the frame, and the per-driver position snapshots in insertion
order (a JS object keyed by `point.driver`, which may be `undefined`). -/
structure Frame where
  cumulative_time : ℤ
  lap : ℤ
  time_in_lap : ℚ
  positions : List (Option String × Snapshot)
  deriving Repr, DecidableEq

/-- JS object property write `positions[d] = s`: an existing key keeps its
insertion position and gets the new value; a new key is appended. -/
def setPos : List (Option String × Snapshot) → Option String → Snapshot →
    List (Option String × Snapshot)
  | [], d, s => [(d, s)]
  | e :: rest, d, s =>
    if e.1 = d then (d, s) :: rest else e :: setPos rest d s

/-- JS object property read `positions[d]`. -/
def getPos : List (Option String × Snapshot) → Option String → Option Snapshot
  | [], _ => none
  | e :: rest, d => if e.1 = d then some e.2 else getPos rest d

/-- The `frameMap` of `processChunkFrames`: a JS `Map` in insertion order,
keyed by the quantized timestamp (the key string `${roundedTime}` is in
bijection with the integer). -/
abbrev FrameMap := List (ℤ × Frame)

/-- One iteration of the `telemetryPoints.forEach` body (lines 150–167):
fetch-or-create the frame for key `t` (creation appends at the end of the
`Map` and takes `lap`/`time_in_lap` from the creating point), then
overwrite `positions[p.driver]`. -/
def insertPoint (t : ℤ) (p : Point) : FrameMap → FrameMap
  | [] => [(t, { cumulative_time := t, lap := p.lap, time_in_lap := p.time_in_lap,
                 positions := [(p.driver, p.snapshot)] })]
  | e :: rest =>
    if e.1 = t then
      (t, { e.2 with positions := setPos e.2.positions p.driver p.snapshot }) :: rest
    else
      e :: insertPoint t p rest

/-- The quantized grouping key of a point (lines 141–148):
`Math.round(point.cumulative_time + timeOffset)`. -/
def frameKey (off : ℚ) (p : Point) : ℤ := jsRound (p.cumulative_time + off)

/-- The `frameMap` after the whole `forEach` loop over a chunk. -/
def buildFrameMap (off : ℚ) (pts : List Point) : FrameMap :=
  pts.foldl (fun m p => insertPoint (frameKey off p) p m) []

/-- Frame order used by the final `.sort((a, b) => a.cumulative_time - b.cumulative_time)`. -/
def frameLE (a b : Frame) : Prop := a.cumulative_time ≤ b.cumulative_time

instance : DecidableRel frameLE := fun a b => Int.decLe _ _

instance : IsTotal Frame frameLE := ⟨fun a b => Int.le_total _ _⟩

instance : IsTrans Frame frameLE := ⟨fun _ _ _ h h' => le_trans h h'⟩

/-- `processChunkFrames` (lines 131–189): group the chunk's points into
frames keyed by quantized adjusted timestamp, then return the frames sorted
ascending by timestamp (JS `Array.prototype.sort` is stable, as is
`insertionSort`). -/
def processChunkFrames (pts : List Point) (off : ℚ) : List Frame :=
  List.insertionSort frameLE ((buildFrameMap off pts).map Prod.snd)

/-- Lookup in the frame map by quantized timestamp (`frameMap.get(frameKey)`). -/
def frameFor : FrameMap → ℤ → Option Frame
  | [], _ => none
  | e :: rest, t => if e.1 = t then some e.2 else frameFor rest t

/-- The snapshot stored for driver `d` in the frame keyed `t`, if any. -/
def posInMap (m : FrameMap) (t : ℤ) (d : Option String) : Option Snapshot :=
  (frameFor m t).bind (fun fr => getPos fr.positions d)

/-- The last point of the chunk (in chunk order) whose quantized key is `t`
and whose driver is `d`, as a snapshot. Used to state the last-write-wins
grouping property of `processChunkFrames`. -/
def lastSnap (pts : List Point) (off : ℚ) (t : ℤ) (d : Option String) : Option Snapshot :=
  pts.foldl
    (fun acc p => if frameKey off p = t ∧ p.driver = d then some p.snapshot else acc)
    none

/-- `Math.max(...chunkFrames.map(f => f.cumulative_time))` on a nonempty
frame list (line 75; the caller guards `chunkFrames.length > 0`). -/
def maxCumulative (fs : List Frame) : ℤ :=
  match fs.map (fun f => f.cumulative_time) with
  | [] => 0
  | t :: ts => ts.foldl max t

/-- The body of one chunk response, as parsed from the transport layer:
the `telemetry` array and the optional `error` field (line 61). -/
structure ChunkPayload where
  telemetry : List Point
  error : Option String

/-- A chunk fetch outcome: `Except.error msg` is a transport failure whose
surfaced message is `msg` (the `catch` shows `err.response?.data?.message`
when present, otherwise the fallback text, line 100). -/
abbrev FetchOutcome := Except String ChunkPayload

/-- State of the ingestion loop of `fetchTelemetryChunks` (lines 49–102):
the running time offset, the accumulated frame sequence, and the surfaced
error, `none` while no fetch has failed. -/
structure IngestState where
  offset : ℚ
  frames : List Frame
  error : Option String
  deriving Repr

/-- Initial ingestion state (lines 44–53): no error, no frames, offset 0. -/
def initialIngest : IngestState := ⟨0, [], none⟩

/-- One iteration of the chunk loop (lines 56–93). A body-level `error`
field throws, and the generic `Error` it produces has no `response` field,
so the catch surfaces the fallback message. Once an error is recorded the
loop has been exited, so later outcomes leave the state unchanged. -/
def stepChunk (st : IngestState) (r : FetchOutcome) : IngestState :=
  if st.error.isSome then st
  else
    match r with
    | Except.error msg => { st with error := some msg }
    | Except.ok payload =>
      if payload.error.isSome then
        { st with error := some "Failed to load telemetry data." }
      else
        let fs := processChunkFrames payload.telemetry st.offset
        { offset := if fs.isEmpty then st.offset else ((maxCumulative fs : ℤ) : ℚ),
          frames := st.frames ++ fs,
          error := none }

/-- The whole sequential fetch loop over a list of chunk outcomes. -/
def runChunks (st : IngestState) (rs : List FetchOutcome) : IngestState :=
  rs.foldl stepChunk st

/-- A fetch outcome that does not abort the loop: a transport success whose
body carries no `error` field. -/
def chunkOk : FetchOutcome → Bool
  | Except.ok p => p.error.isNone
  | Except.error _ => false

/-- Playback clock state: the fractional frame cursor (`currentFrame`) and
the `isPlaying` flag. -/
structure ClockState where
  cursor : ℚ
  playing : Bool
  deriving Repr, DecidableEq

/-- One `animate` tick (lines 196–213) while playing: `deltaTime` elapsed
wall-clock seconds, advance by `deltaTime * playbackSpeed`; at or past
`length - 1` clamp there and set `isPlaying` to false. -/
def animateTick (frameCount : ℕ) (speed deltaTime : ℚ) (st : ClockState) : ClockState :=
  let nextFrame := st.cursor + deltaTime * speed
  if (frameCount : ℚ) - 1 ≤ nextFrame then ⟨(frameCount : ℚ) - 1, false⟩
  else ⟨nextFrame, st.playing⟩

/-- JS truthiness of a possibly-absent numeric field: `undefined` and `0`
are falsy. -/
def truthy : Option ℚ → Bool
  | none => false
  | some v => v != 0

/-- `lerp` (lines 257–259). -/
def lerp (start finish factor : ℚ) : ℚ := start + (finish - start) * factor

/-- `allInterpolatedPositions` (lines 261–285): for each driver of the
current frame whose position is truthy in x and y, either interpolate
toward a truthy next-frame position or keep the current snapshot.
Non-positional fields always come from the current frame. -/
def allInterpolated (fr nx : Frame) (factor : ℚ) : List (Option String × Snapshot) :=
  fr.positions.filterMap (fun e =>
    if truthy e.2.x && truthy e.2.y then
      match getPos nx.positions e.1 with
      | some np =>
        if truthy np.x && truthy np.y then
          some (e.1, { x := some (lerp ((e.2.x).getD 0) ((np.x).getD 0) factor),
                       y := some (lerp ((e.2.y).getD 0) ((np.y).getD 0) factor),
                       pos_rank := e.2.pos_rank, compound := e.2.compound,
                       speed := e.2.speed, lap := e.2.lap })
        else some e
      | none => some e
    else none)

/-- JS truthiness of the optional integer standing (`data.position`). -/
def truthyRank : Option ℤ → Bool
  | none => false
  | some v => v != 0

/-- Standings order used by `.sort((a, b) => a[1].position - b[1].position)`. -/
def rankLE (a b : Option String × Snapshot) : Prop :=
  a.2.pos_rank.getD 0 ≤ b.2.pos_rank.getD 0

instance : DecidableRel rankLE := fun a b => Int.decLe _ _

instance : IsTotal (Option String × Snapshot) rankLE := ⟨fun a b => Int.le_total _ _⟩

instance : IsTrans (Option String × Snapshot) rankLE := ⟨fun _ _ _ h h' => le_trans h h'⟩

/-- What one render pass derives from the two frames around the cursor and
the selection: the standings list (lines 376–378: entries with a truthy
standing, sorted ascending by it) and the spatially rendered positions
(lines 288–293: the interpolated entries filtered by `selectedDrivers`). -/
structure RenderOutput where
  standings : List (Option String × Snapshot)
  spatial : List (Option String × Snapshot)
  deriving Repr

/-- One render pass (lines 261–293 and 376–378). -/
def render (fr nx : Frame) (factor : ℚ) (selected : Finset (Option String)) :
    RenderOutput :=
  let allPos := allInterpolated fr nx factor
  { standings := List.insertionSort rankLE
      (allPos.filter (fun e => truthyRank e.2.pos_rank)),
    spatial := allPos.filter (fun e => decide (e.1 ∈ selected)) }

/-- Driver-set / selection state of the component: `allDrivers` and
`selectedDrivers` (lines 33–34). -/
structure UIState where
  allDrivers : Finset (Option String)
  selectedDrivers : Finset (Option String)
  deriving DecidableEq

/-- The set of `point.driver` values of a chunk (`driversInChunk`,
lines 134–138). -/
def driversOf (pts : List Point) : Finset (Option String) :=
  pts.foldl (fun s p => insert p.driver s) ∅

/-- Events that touch the driver-set / selection state. -/
inductive UIEvent
  | chunk (pts : List Point)
  | toggle (d : Option String)
  | selectAll
  | deselectAll

/-- State transition for the driver-set / selection state. Processing a
chunk runs `setAllDrivers(prev => new Set([...prev, ...driversInChunk]))`
(line 183); the new `Set` object is never reference-equal to the old one,
so the effect keyed on `[allDrivers]` (lines 109–111) fires — even when the
chunk adds no new code — and resets `selectedDrivers` to the full set.
`toggle` (lines 114–124) flips one driver; `selectAll` / `deselectAll`
(lines 127–128) set the full / empty set. -/
def uiStep (st : UIState) : UIEvent → UIState
  | UIEvent.chunk pts =>
    let all := st.allDrivers ∪ driversOf pts
    ⟨all, all⟩
  | UIEvent.toggle d =>
    ⟨st.allDrivers,
     if d ∈ st.selectedDrivers then st.selectedDrivers.erase d
     else insert d st.selectedDrivers⟩
  | UIEvent.selectAll => ⟨st.allDrivers, st.allDrivers⟩
  | UIEvent.deselectAll => ⟨st.allDrivers, ∅⟩

/-- Concrete telemetry records used to exercise the definitions: two
samples for "HAM" quantizing to the same second (second one wins) and one
for "VER". -/
def wP1 : Point := ⟨some "HAM", some 1, some 2, 1, 0, 0, none, none, some 1⟩

def wP2 : Point := ⟨some "VER", some 5, some 6, 1, 0, 0, none, none, some 2⟩

def wP3 : Point := ⟨some "HAM", some 3, some 4, 1, 0, 0, none, none, some 1⟩

def wPts : List Point := [wP1, wP2, wP3]

/-- The single frame `processChunkFrames wPts 0` produces. -/
def wFrame : Frame :=
  ⟨0, 1, 0, [(some "HAM", ⟨some 3, some 4, some 1, none, none, 1⟩),
             (some "VER", ⟨some 5, some 6, some 2, none, none, 1⟩)]⟩

/-- A chunk in which "VER" is sampled at second 0 and "HAM" only at
second 1. -/
def cVER : Point := ⟨some "VER", some 1, some 1, 1, 0, 0, none, none, some 1⟩

def cHAM : Point := ⟨some "HAM", some 2, some 2, 1, 1, 1, none, none, some 2⟩

/-- A record whose `driver` field is absent. -/
def cNoDrv : Point := ⟨none, some 5, some 7, 1, 0, 0, none, none, none⟩

theorem getPos_setPos (ps : List (Option String × Snapshot)) (d d' : Option String)
    (s : Snapshot) :
    getPos (setPos ps d s) d' = if d' = d then some s else getPos ps d' := by
  induction ps with
  | nil => by_cases h : d' = d <;> simp [setPos, getPos, h, Ne.symm]
  | cons e rest ih =>
    by_cases h1 : e.1 = d
    · by_cases h2 : d' = d <;> simp [setPos, getPos, h1, h2] <;> simp [Ne.symm h2, h1]
    · by_cases h2 : d' = d
      · subst h2; simp [setPos, getPos, h1, ih]
      · simp [setPos, getPos, h1, ih, h2]

theorem frameFor_insertPoint_ne (m : FrameMap) (t t' : ℤ) (p : Point) (h : t' ≠ t) :
    frameFor (insertPoint t p m) t' = frameFor m t' := by
  induction m with
  | nil => simp [insertPoint, frameFor, h, Ne.symm h]
  | cons e rest ih =>
    by_cases h1 : e.1 = t
    · subst h1; simp [insertPoint, frameFor, Ne.symm h]
    · simp only [insertPoint, if_neg h1]
      by_cases h2 : e.1 = t' <;> simp [frameFor, h2, ih]

theorem frameFor_insertPoint_self (m : FrameMap) (t : ℤ) (p : Point) :
    frameFor (insertPoint t p m) t =
      some (match frameFor m t with
            | none => { cumulative_time := t, lap := p.lap, time_in_lap := p.time_in_lap,
                        positions := [(p.driver, p.snapshot)] }
            | some fr => { fr with positions := setPos fr.positions p.driver p.snapshot }) := by
  induction m with
  | nil => simp [insertPoint, frameFor]
  | cons e rest ih =>
    by_cases h1 : e.1 = t
    · subst h1; simp [insertPoint, frameFor]
    · simp [insertPoint, frameFor, h1, ih]

theorem posInMap_insertPoint (m : FrameMap) (t t' : ℤ) (p : Point) (d : Option String) :
    posInMap (insertPoint t p m) t' d =
      if t' = t ∧ d = p.driver then some p.snapshot else posInMap m t' d := by
  by_cases ht : t' = t
  · subst ht
    rw [posInMap, frameFor_insertPoint_self]
    rcases hm : frameFor m t' with _ | fr
    · by_cases hd : d = p.driver <;>
        simp [hm, getPos, hd, posInMap, Ne.symm]
    · by_cases hd : d = p.driver <;>
        simp [hm, getPos_setPos, hd, posInMap]
  · simp [posInMap, frameFor_insertPoint_ne m t t' p ht, ht]

theorem posInMap_buildLoop (off : ℚ) (pts : List Point) (m : FrameMap) (t : ℤ)
    (d : Option String) :
    posInMap (pts.foldl (fun m p => insertPoint (frameKey off p) p m) m) t d =
      pts.foldl
        (fun acc p => if frameKey off p = t ∧ p.driver = d then some p.snapshot else acc)
        (posInMap m t d) := by
  induction pts generalizing m with
  | nil => rfl
  | cons p rest ih =>
    simp only [List.foldl_cons, ih, posInMap_insertPoint]
    by_cases h1 : frameKey off p = t
    · by_cases h2 : p.driver = d <;> simp [h1, h2, Ne.symm]
    · have : ¬ (t = frameKey off p) := fun h => h1 h.symm
      simp [h1, this]

theorem posInMap_buildFrameMap (off : ℚ) (pts : List Point) (t : ℤ) (d : Option String) :
    posInMap (buildFrameMap off pts) t d = lastSnap pts off t d := by
  rw [buildFrameMap, posInMap_buildLoop, lastSnap]
  rfl

theorem mem_insertPoint_ct (m : FrameMap) (t : ℤ) (p : Point)
    (hm : ∀ e ∈ m, (Prod.snd e).cumulative_time = e.1) :
    ∀ e ∈ insertPoint t p m, (Prod.snd e).cumulative_time = e.1 := by
  induction m with
  | nil => simp [insertPoint]
  | cons e rest ih =>
    by_cases h1 : e.1 = t
    · subst h1
      simp only [insertPoint, if_pos rfl]
      intro e' he'
      rcases List.mem_cons.mp he' with h | h
      · subst h; exact hm e (List.mem_cons_self _ _)
      · exact hm e' (List.mem_cons_of_mem _ h)
    · simp only [insertPoint, if_neg h1]
      intro e' he'
      rcases List.mem_cons.mp he' with h | h
      · subst h; exact hm e' (List.mem_cons_self _ _)
      · exact ih (fun e'' he'' => hm e'' (List.mem_cons_of_mem _ he'')) e' h

theorem mem_buildFrameMap_ct (off : ℚ) (pts : List Point) :
    ∀ e ∈ buildFrameMap off pts, (Prod.snd e).cumulative_time = e.1 := by
  rw [buildFrameMap]
  generalize hm : ([] : FrameMap) = m0
  have h0 : ∀ e ∈ m0, (Prod.snd e).cumulative_time = e.1 := by
    subst hm; simp
  clear hm
  induction pts generalizing m0 with
  | nil => exact h0
  | cons p rest ih =>
    exact ih _ (mem_insertPoint_ct m0 (frameKey off p) p h0)

theorem keys_insertPoint (m : FrameMap) (t : ℤ) (p : Point) :
    (insertPoint t p m).map Prod.fst =
      if (frameFor m t).isSome then m.map Prod.fst else m.map Prod.fst ++ [t] := by
  induction m with
  | nil => simp [insertPoint, frameFor]
  | cons e rest ih =>
    by_cases h1 : e.1 = t
    · subst h1; simp [insertPoint, frameFor]
    · simp only [insertPoint, if_neg h1, frameFor, List.map_cons, ih]
      by_cases h2 : (frameFor rest t).isSome <;> simp [h1, h2]

theorem frameFor_isSome_of_mem_keys (m : FrameMap) (t : ℤ)
    (h : t ∈ m.map Prod.fst) : (frameFor m t).isSome := by
  induction m with
  | nil => simp at h
  | cons e rest ih =>
    by_cases h2 : e.1 = t
    · simp [frameFor, h2]
    · rw [List.map_cons, List.mem_cons] at h
      rcases h with h' | h'
      · exact absurd h'.symm h2
      · simpa [frameFor, h2] using ih h'

theorem nodup_keys_insertPoint (m : FrameMap) (t : ℤ) (p : Point)
    (hm : (m.map Prod.fst).Nodup) : ((insertPoint t p m).map Prod.fst).Nodup := by
  rw [keys_insertPoint]
  by_cases h : (frameFor m t).isSome
  · simpa [h] using hm
  · have ht : t ∉ m.map Prod.fst := fun hmem => h (frameFor_isSome_of_mem_keys m t hmem)
    simp only [if_neg h]
    exact List.Nodup.append hm (List.nodup_singleton t)
      (fun a ha hb => ht ((List.mem_singleton.mp hb) ▸ ha))

theorem nodup_keys_buildFrameMap (off : ℚ) (pts : List Point) :
    ((buildFrameMap off pts).map Prod.fst).Nodup := by
  rw [buildFrameMap]
  generalize hm : ([] : FrameMap) = m0
  have h0 : (m0.map Prod.fst).Nodup := by subst hm; simp
  clear hm
  induction pts generalizing m0 with
  | nil => exact h0
  | cons p rest ih => exact ih _ (nodup_keys_insertPoint m0 (frameKey off p) p h0)

theorem frameFor_eq_some_of_mem (m : FrameMap) (t : ℤ) (fr : Frame)
    (hnd : (m.map Prod.fst).Nodup) (hmem : (t, fr) ∈ m) : frameFor m t = some fr := by
  induction m with
  | nil => simp at hmem
  | cons e rest ih =>
    rcases List.mem_cons.mp hmem with h | h
    · subst h; simp [frameFor]
    · have h1 : e.1 ≠ t := by
        intro h1
        have : t ∈ rest.map Prod.fst := List.mem_map.mpr ⟨(t, fr), h, rfl⟩
        rw [List.map_cons, List.nodup_cons] at hnd
        exact hnd.1 (h1 ▸ this)
      simp only [frameFor, if_neg h1]
      exact ih (List.nodup_cons.mp (by simpa using hnd)).2 h

theorem mem_of_frameFor_eq_some (m : FrameMap) (t : ℤ) (fr : Frame)
    (h : frameFor m t = some fr) : (t, fr) ∈ m := by
  induction m with
  | nil => simp [frameFor] at h
  | cons e rest ih =>
    obtain ⟨e1, e2⟩ := e
    by_cases h1 : e1 = t
    · subst h1
      rw [frameFor, if_pos rfl] at h
      obtain rfl : e2 = fr := Option.some.inj h
      exact List.mem_cons_self _ _
    · rw [frameFor, if_neg h1] at h
      exact List.mem_cons_of_mem _ (ih h)

theorem isSome_frameFor_buildLoop (off : ℚ) (pts : List Point) (m : FrameMap) (t : ℤ) :
    (frameFor (pts.foldl (fun m p => insertPoint (frameKey off p) p m) m) t).isSome ↔
      (frameFor m t).isSome ∨ ∃ p ∈ pts, frameKey off p = t := by
  induction pts generalizing m with
  | nil => simp
  | cons p rest ih =>
    simp only [List.foldl_cons, ih]
    by_cases h1 : frameKey off p = t
    · subst h1
      rw [frameFor_insertPoint_self]
      simp
    · rw [frameFor_insertPoint_ne _ _ _ _ (fun h => h1 h.symm)]
      constructor
      · rintro (h | ⟨q, hq, hkq⟩)
        · exact Or.inl h
        · exact Or.inr ⟨q, List.mem_cons_of_mem _ hq, hkq⟩
      · rintro (h | ⟨q, hq, hkq⟩)
        · exact Or.inl h
        · rcases List.mem_cons.mp hq with h' | h'
          · subst h'; exact absurd hkq h1
          · exact Or.inr ⟨q, h', hkq⟩

theorem isSome_frameFor_buildFrameMap (off : ℚ) (pts : List Point) (t : ℤ) :
    (frameFor (buildFrameMap off pts) t).isSome ↔ ∃ p ∈ pts, frameKey off p = t := by
  rw [buildFrameMap]
  simpa [frameFor] using isSome_frameFor_buildLoop off pts [] t

theorem mem_processChunkFrames_iff_mem_values (pts : List Point) (off : ℚ) (fr : Frame) :
    fr ∈ processChunkFrames pts off ↔ fr ∈ (buildFrameMap off pts).map Prod.snd :=
  (List.perm_insertionSort frameLE _).mem_iff

theorem getPos_processChunkFrames (pts : List Point) (off : ℚ) (fr : Frame)
    (hfr : fr ∈ processChunkFrames pts off) (d : Option String) :
    getPos fr.positions d = lastSnap pts off fr.cumulative_time d := by
  rw [mem_processChunkFrames_iff_mem_values] at hfr
  rcases List.mem_map.mp hfr with ⟨e, he, rfl⟩
  have hct := mem_buildFrameMap_ct off pts e he
  have hnd := nodup_keys_buildFrameMap off pts
  have hmem : (e.1, e.2) ∈ buildFrameMap off pts := by simpa using he
  have hf : frameFor (buildFrameMap off pts) e.1 = some e.2 :=
    frameFor_eq_some_of_mem _ _ _ hnd hmem
  have h2 : posInMap (buildFrameMap off pts) e.1 d = getPos e.2.positions d := by
    rw [posInMap, hf]; rfl
  rw [hct, ← h2, posInMap_buildFrameMap]

theorem sorted_processChunkFrames (pts : List Point) (off : ℚ) :
    List.Sorted frameLE (processChunkFrames pts off) :=
  List.sorted_insertionSort frameLE _

theorem exists_frame_iff (pts : List Point) (off : ℚ) (t : ℤ) :
    (∃ fr ∈ processChunkFrames pts off, fr.cumulative_time = t) ↔
      ∃ p ∈ pts, frameKey off p = t := by
  rw [← isSome_frameFor_buildFrameMap off pts t]
  constructor
  · rintro ⟨fr, hfr, rfl⟩
    rw [mem_processChunkFrames_iff_mem_values] at hfr
    rcases List.mem_map.mp hfr with ⟨e, he, rfl⟩
    rw [mem_buildFrameMap_ct off pts e he]
    exact frameFor_isSome_of_mem_keys _ _ (List.mem_map.mpr ⟨e, he, rfl⟩)
  · intro h
    rcases Option.isSome_iff_exists.mp h with ⟨fr, hf⟩
    have hmem := mem_of_frameFor_eq_some _ _ _ hf
    refine ⟨fr, ?_, ?_⟩
    · rw [mem_processChunkFrames_iff_mem_values]
      exact List.mem_map.mpr ⟨(t, fr), hmem, rfl⟩
    · exact mem_buildFrameMap_ct off pts (t, fr) hmem

theorem le_foldl_max (l : List ℤ) (a : ℤ) : a ≤ l.foldl max a := by
  induction l generalizing a with
  | nil => exact le_refl a
  | cons b l ih => exact le_trans (le_max_left a b) (ih (max a b))

theorem mem_le_foldl_max (l : List ℤ) (a x : ℤ) (hx : x ∈ l) : x ≤ l.foldl max a := by
  induction l generalizing a with
  | nil => simp at hx
  | cons b l ih =>
    rcases List.mem_cons.mp hx with h | h
    · subst h; exact le_trans (le_max_right a x) (le_foldl_max l _)
    · exact ih _ h

theorem foldl_max_mem (l : List ℤ) (a : ℤ) : l.foldl max a = a ∨ l.foldl max a ∈ l := by
  induction l generalizing a with
  | nil => exact Or.inl rfl
  | cons b l ih =>
    rw [List.foldl_cons]
    rcases ih (max a b) with h | h
    · rcases max_choice a b with h' | h'
      · exact Or.inl (by rw [h, h'])
      · exact Or.inr (by rw [h, h']; exact List.mem_cons_self b l)
    · exact Or.inr (List.mem_cons_of_mem b h)

theorem le_maxCumulative (fs : List Frame) (fr : Frame) (h : fr ∈ fs) :
    fr.cumulative_time ≤ maxCumulative fs := by
  cases fs with
  | nil => simp at h
  | cons f rest =>
    have e : maxCumulative (f :: rest) =
        (rest.map (fun f => f.cumulative_time)).foldl max f.cumulative_time := rfl
    rw [e]
    rcases List.mem_cons.mp h with h' | h'
    · subst h'; exact le_foldl_max _ _
    · exact mem_le_foldl_max _ _ _ (List.mem_map.mpr ⟨fr, h', rfl⟩)

theorem maxCumulative_mem (fs : List Frame) (h : fs ≠ []) :
    maxCumulative fs ∈ fs.map (fun f => f.cumulative_time) := by
  cases fs with
  | nil => exact absurd rfl h
  | cons f rest =>
    have e : maxCumulative (f :: rest) =
        (rest.map (fun f => f.cumulative_time)).foldl max f.cumulative_time := rfl
    rcases foldl_max_mem (rest.map (fun f => f.cumulative_time)) f.cumulative_time with h' | h'
    · rw [List.map_cons, e, h']; exact List.mem_cons_self _ _
    · rw [List.map_cons, e]; exact List.mem_cons_of_mem _ h'

theorem intCast_le_frameKey (p : Point) (n : ℤ) (h : 0 ≤ p.cumulative_time) :
    n ≤ frameKey ((n : ℤ) : ℚ) p := by
  rw [frameKey, jsRound]
  calc n = ⌊((n : ℤ) : ℚ)⌋ := (Int.floor_intCast n).symm
    _ ≤ ⌊p.cumulative_time + ((n : ℤ) : ℚ) + 1 / 2⌋ := Int.floor_le_floor (by linarith)

theorem jsRound_zero : jsRound 0 = 0 := by
  have h : ⌊(1 / 2 : ℚ)⌋ = 0 := by norm_num [Int.floor_eq_iff]
  rw [jsRound, zero_add, h]

theorem jsRound_intCast (n : ℤ) : jsRound ((n : ℤ) : ℚ) = n := by
  have h : ⌊(1 / 2 : ℚ)⌋ = 0 := by norm_num [Int.floor_eq_iff]
  rw [jsRound, add_comm, Int.floor_add_int, h, zero_add]

theorem stepChunk_of_error_isSome (st : IngestState) (r : FetchOutcome)
    (h : st.error.isSome) : stepChunk st r = st := by
  rw [stepChunk.eq_def, if_pos h]

theorem runChunks_of_error_isSome (st : IngestState) (rs : List FetchOutcome)
    (h : st.error.isSome) : runChunks st rs = st := by
  induction rs with
  | nil => rfl
  | cons r rest ih =>
    show List.foldl stepChunk (stepChunk st r) rest = st
    rw [stepChunk_of_error_isSome st r h]
    exact ih

theorem stepChunk_ok (st : IngestState) (p : ChunkPayload) (hst : st.error = none)
    (hp : p.error = none) :
    stepChunk st (Except.ok p) =
      { offset := if (processChunkFrames p.telemetry st.offset).isEmpty then st.offset
                  else ((maxCumulative (processChunkFrames p.telemetry st.offset) : ℤ) : ℚ),
        frames := st.frames ++ processChunkFrames p.telemetry st.offset,
        error := none } := by
  rw [stepChunk, if_neg (by simp [hst])]
  simp [hp]

theorem stepChunk_fail (st : IngestState) (r : FetchOutcome) (hst : st.error = none)
    (hr : chunkOk r = false) :
    (stepChunk st r).frames = st.frames ∧ (stepChunk st r).offset = st.offset ∧
      (stepChunk st r).error.isSome := by
  cases r with
  | error msg => refine ⟨?_, ?_, ?_⟩ <;> simp [stepChunk, hst]
  | ok p =>
    have hps : p.error.isSome := by
      cases hpe : p.error with
      | none => rw [chunkOk] at hr; simp [hpe] at hr
      | some e => simp
    refine ⟨?_, ?_, ?_⟩ <;> simp [stepChunk, hst, hps]

theorem runChunks_ok_error_none (rs : List FetchOutcome) (st : IngestState)
    (hst : st.error = none) (hok : ∀ r ∈ rs, chunkOk r) :
    (runChunks st rs).error = none := by
  induction rs generalizing st with
  | nil => exact hst
  | cons r rest ih =>
    show (List.foldl stepChunk (stepChunk st r) rest).error = none
    have h1 : (stepChunk st r).error = none := by
      cases r with
      | error msg => have := hok _ (List.mem_cons_self _ _); rw [chunkOk] at this; simp at this
      | ok p =>
        have hp := hok _ (List.mem_cons_self _ _)
        rw [chunkOk] at hp
        rw [stepChunk_ok st p hst (Option.isNone_iff_eq_none.mp hp)]
    exact ih _ h1 (fun r' hr' => hok r' (List.mem_cons_of_mem _ hr'))

theorem stepChunk_frames_extend (st : IngestState) (r : FetchOutcome) :
    ∃ fs, (stepChunk st r).frames = st.frames ++ fs := by
  by_cases h : st.error.isSome
  · exact ⟨[], by rw [stepChunk_of_error_isSome st r h]; simp⟩
  · have hst : st.error = none := Option.not_isSome_iff_eq_none.mp h
    cases r with
    | error msg => exact ⟨[], by simp [stepChunk, hst]⟩
    | ok p =>
      cases hpe : p.error with
      | some e =>
        refine ⟨[], ?_⟩
        rw [stepChunk.eq_def, if_neg (by simp [hst])]
        simp [hpe]
      | none =>
        refine ⟨processChunkFrames p.telemetry st.offset, ?_⟩
        rw [stepChunk_ok st p hst hpe]

theorem runChunks_frames_extend (rs : List FetchOutcome) (st : IngestState) :
    ∃ tl, (runChunks st rs).frames = st.frames ++ tl := by
  induction rs generalizing st with
  | nil => exact ⟨[], by simp [runChunks]⟩
  | cons r rest ih =>
    rcases ih (stepChunk st r) with ⟨tl, htl⟩
    rcases stepChunk_frames_extend st r with ⟨fs, hfs⟩
    refine ⟨fs ++ tl, ?_⟩
    show (runChunks (stepChunk st r) rest).frames = st.frames ++ (fs ++ tl)
    rw [htl, hfs, List.append_assoc]

theorem jsRound_one : jsRound 1 = 1 := by
  have h : ⌊(3 / 2 : ℚ)⌋ = 1 := by norm_num [Int.floor_eq_iff]
  rw [jsRound]
  norm_num [h]

theorem truthy_ne_none (o : Option ℚ) (h : truthy o = true) : o ≠ none := by
  cases o with
  | none => simp [truthy] at h
  | some v => simp

theorem foldl_lastSnap_const (off : ℚ) (t : ℤ) (d : Option String) (pts : List Point)
    (acc : Option Snapshot) (h : ∀ p ∈ pts, ¬(frameKey off p = t ∧ p.driver = d)) :
    pts.foldl
        (fun acc p => if frameKey off p = t ∧ p.driver = d then some p.snapshot else acc)
        acc = acc := by
  induction pts generalizing acc with
  | nil => rfl
  | cons p rest ih =>
    rw [List.foldl_cons, if_neg (h p (List.mem_cons_self _ _))]
    exact ih acc (fun q hq => h q (List.mem_cons_of_mem _ hq))

theorem lastSnap_eq_none (pts : List Point) (off : ℚ) (t : ℤ) (d : Option String)
    (h : ∀ p ∈ pts, p.driver ≠ d) : lastSnap pts off t d = none :=
  foldl_lastSnap_const off t d pts none
    (fun p hp hcon => h p hp hcon.2)

theorem foldl_lastSnap_isSome_of_isSome (off : ℚ) (t : ℤ) (d : Option String)
    (pts : List Point) (acc : Option Snapshot) (h : acc.isSome) :
    (pts.foldl
        (fun acc p => if frameKey off p = t ∧ p.driver = d then some p.snapshot else acc)
        acc).isSome := by
  induction pts generalizing acc with
  | nil => exact h
  | cons p rest ih =>
    rw [List.foldl_cons]
    by_cases hc : frameKey off p = t ∧ p.driver = d
    · rw [if_pos hc]; exact ih _ rfl
    · rw [if_neg hc]; exact ih _ h

theorem lastSnap_isSome_of_mem (pts : List Point) (off : ℚ) (p : Point) (hp : p ∈ pts) :
    (lastSnap pts off (frameKey off p) p.driver).isSome := by
  rw [lastSnap]
  generalize hacc : (none : Option Snapshot) = acc
  clear hacc
  induction pts generalizing acc with
  | nil => simp at hp
  | cons q rest ih =>
    rw [List.foldl_cons]
    rcases List.mem_cons.mp hp with h | h
    · subst h
      rw [if_pos ⟨rfl, rfl⟩]
      exact foldl_lastSnap_isSome_of_isSome _ _ _ rest _ rfl
    · by_cases hc : frameKey off q = frameKey off p ∧ q.driver = p.driver
      · rw [if_pos hc]
        exact foldl_lastSnap_isSome_of_isSome _ _ _ rest _ rfl
      · rw [if_neg hc]
        exact ih h _

theorem eval_wPts_frames : processChunkFrames wPts 0 = [wFrame] := by
  simp [processChunkFrames, buildFrameMap, insertPoint, frameKey, Point.snapshot, setPos,
        wP1, wP2, wP3, wPts, wFrame, jsRound_zero, frameLE]

theorem eval_wFrame_mem : wFrame ∈ processChunkFrames wPts 0 := by
  rw [eval_wPts_frames]
  exact List.mem_cons_self _ _

/-- **C1** (counterexample): with chunk 0 = `[wP1]` (one sample at
cumulative second 0) and chunk 1 = `[wP1]` again (cumulative_time
restarting at 0.0), the controller's offset for chunk 1 is chunk 0's
maximum timestamp 0, so chunk 1's first frame maps to timestamp 0 — equal
to chunk 0's last timestamp, not one past it — and the merged sequence
contains a duplicated timestamp, contradicting "no two frames share a
timestamp ... continuing the sequence without overlap". -/
theorem chunk_boundary_timestamp_repeats_cx :
    ((runChunks initialIngest
        [Except.ok ⟨[wP1], none⟩, Except.ok ⟨[wP1], none⟩]).frames.map
      (fun f => f.cumulative_time)) = [0, 0] ∧
    ¬ ((runChunks initialIngest
        [Except.ok ⟨[wP1], none⟩, Except.ok ⟨[wP1], none⟩]).frames.map
      (fun f => f.cumulative_time)).Nodup := by
  have h : ((runChunks initialIngest
      [Except.ok ⟨[wP1], none⟩, Except.ok ⟨[wP1], none⟩]).frames.map
        (fun f => f.cumulative_time)) = [0, 0] := by
    simp [runChunks, stepChunk, initialIngest, processChunkFrames, buildFrameMap, insertPoint,
          frameKey, Point.snapshot, wP1, jsRound_zero, frameLE, maxCumulative]
  exact ⟨h, by rw [h]; simp⟩

/-- **C1** (amended): the merged sequence of two sequentially synthesized
chunks is non-decreasing in timestamp, but not strictly: the offset used
for chunk 1 is chunk 0's maximum timestamp itself, so when chunk 1's raw
`cumulative_time` restarts at 0.0 its first frame repeats the boundary
timestamp (in the 0..59 scenario, chunk 1 starts at 59, not 60). -/
theorem merged_frames_nondecreasing (ptsA ptsB : List Point)
    (hB : ∀ p ∈ ptsB, 0 ≤ p.cumulative_time) :
    List.Sorted frameLE
      (processChunkFrames ptsA 0 ++
        processChunkFrames ptsB
          ((maxCumulative (processChunkFrames ptsA 0) : ℤ) : ℚ)) := by
  refine List.pairwise_append.mpr
    ⟨sorted_processChunkFrames _ _, sorted_processChunkFrames _ _, ?_⟩
  intro a ha b hb
  have h1 : a.cumulative_time ≤ maxCumulative (processChunkFrames ptsA 0) :=
    le_maxCumulative _ a ha
  have h2 := (exists_frame_iff ptsB
    ((maxCumulative (processChunkFrames ptsA 0) : ℤ) : ℚ) b.cumulative_time).mp ⟨b, hb, rfl⟩
  rcases h2 with ⟨p, hp, hk⟩
  have h3 := intCast_le_frameKey p (maxCumulative (processChunkFrames ptsA 0)) (hB p hp)
  rw [hk] at h3
  exact le_trans h1 h3

theorem eval_wP1_nonneg : ∀ p ∈ [wP1], 0 ≤ p.cumulative_time := by
  simp [wP1]

/-- Witness for `merged_frames_nondecreasing` at chunk 0 = chunk 1 = `[wP1]`. -/
theorem merged_frames_nondecreasing_witness :
    (∀ p ∈ [wP1], 0 ≤ p.cumulative_time) ∧
    List.Sorted frameLE
      (processChunkFrames [wP1] 0 ++
        processChunkFrames [wP1]
          ((maxCumulative (processChunkFrames [wP1] 0) : ℤ) : ℚ)) :=
  ⟨eval_wP1_nonneg, merged_frames_nondecreasing [wP1] [wP1] eval_wP1_nonneg⟩

/-- **C2**: after synthesizing chunk A, chunk B's frames are produced with
the offset recorded in the state after A; that offset is unchanged when A
produced no frames, and otherwise is exactly the maximum `cumulative_time`
(timestamp) among A's resulting frames. -/
theorem time_offset_eq_max_timestamp (st : IngestState) (pA pB : ChunkPayload)
    (hst : st.error = none) (hA : pA.error = none) (hB : pB.error = none) :
    ((stepChunk (stepChunk st (Except.ok pA)) (Except.ok pB)).frames =
        (stepChunk st (Except.ok pA)).frames ++
          processChunkFrames pB.telemetry (stepChunk st (Except.ok pA)).offset)
    ∧ (processChunkFrames pA.telemetry st.offset = [] →
        (stepChunk st (Except.ok pA)).offset = st.offset)
    ∧ (processChunkFrames pA.telemetry st.offset ≠ [] →
        ∃ m : ℤ, (stepChunk st (Except.ok pA)).offset = (m : ℚ) ∧
          m ∈ (processChunkFrames pA.telemetry st.offset).map (fun f => f.cumulative_time) ∧
          ∀ t ∈ (processChunkFrames pA.telemetry st.offset).map (fun f => f.cumulative_time),
            t ≤ m) := by
  have hstA := stepChunk_ok st pA hst hA
  have hstAerr : (stepChunk st (Except.ok pA)).error = none := by rw [hstA]
  refine ⟨?_, ?_, ?_⟩
  · rw [stepChunk_ok _ pB hstAerr hB]
  · intro h
    rw [hstA]
    simp [h]
  · intro h
    refine ⟨maxCumulative (processChunkFrames pA.telemetry st.offset), ?_, ?_, ?_⟩
    · rw [hstA]
      simp [List.isEmpty_iff, h]
    · exact maxCumulative_mem _ h
    · intro t ht
      rcases List.mem_map.mp ht with ⟨fr, hfr, rfl⟩
      exact le_maxCumulative _ fr hfr

theorem eval_wPts_nonempty : processChunkFrames wPts 0 ≠ [] := by
  rw [eval_wPts_frames]
  simp

/-- Witness for `time_offset_eq_max_timestamp` at A = `wPts`, B = empty. -/
theorem time_offset_eq_max_timestamp_witness :
    initialIngest.error = none ∧
    ∃ m : ℤ,
      (stepChunk initialIngest (Except.ok ⟨wPts, none⟩)).offset = (m : ℚ) ∧
      m ∈ (processChunkFrames wPts initialIngest.offset).map (fun f => f.cumulative_time) ∧
      ∀ t ∈ (processChunkFrames wPts initialIngest.offset).map (fun f => f.cumulative_time),
        t ≤ m :=
  ⟨rfl,
   (time_offset_eq_max_timestamp initialIngest ⟨wPts, none⟩ ⟨[], none⟩ rfl rfl rfl).2.2
     eval_wPts_nonempty⟩

/-- **C3**: samples are grouped by `Math.round(cumulative_time + offset)`:
a frame with timestamp `t` exists iff some sample's quantized adjusted time
is `t`; the snapshot stored for a driver in that frame is the one of the
last matching sample in chunk order (last-write-wins, no averaging); and
the chunk's frames are returned sorted ascending by timestamp. -/
theorem frame_grouping_lww_sorted (pts : List Point) (off : ℚ) :
    (∀ fr ∈ processChunkFrames pts off, ∀ d : Option String,
        getPos fr.positions d = lastSnap pts off fr.cumulative_time d)
    ∧ List.Sorted frameLE (processChunkFrames pts off)
    ∧ ∀ t : ℤ, (∃ fr ∈ processChunkFrames pts off, fr.cumulative_time = t) ↔
        ∃ p ∈ pts, frameKey off p = t :=
  ⟨fun fr hfr d => getPos_processChunkFrames pts off fr hfr d,
   sorted_processChunkFrames pts off,
   fun t => exists_frame_iff pts off t⟩

/-- Witness for `frame_grouping_lww_sorted`: in `wPts` both "HAM" samples
quantize to second 0 and the later one (`wP3`) wins. -/
theorem frame_grouping_lww_sorted_witness :
    wFrame ∈ processChunkFrames wPts 0 ∧
      getPos wFrame.positions (some "HAM") =
        lastSnap wPts 0 wFrame.cumulative_time (some "HAM") :=
  ⟨eval_wFrame_mem,
   (frame_grouping_lww_sorted wPts 0).1 wFrame eval_wFrame_mem (some "HAM")⟩

/-- **C4**: while playing, a tick advances the cursor by
`deltaTime * playbackSpeed`; a tick that would land at or past
`frameCount - 1` clamps there and clears the playing flag, and otherwise
the cursor moves to exactly `cursor + deltaTime * speed`. Concretely, a
cursor at 58.9 with speed 1 and 0.2 elapsed seconds out of 60 frames lands
on 59 with playing false. -/
theorem playback_clamp_stop :
    (∀ (fc : ℕ) (speed dt c : ℚ) (pl : Bool),
        (fc : ℚ) - 1 < c + dt * speed →
          animateTick fc speed dt ⟨c, pl⟩ = ⟨(fc : ℚ) - 1, false⟩)
    ∧ (∀ (fc : ℕ) (speed dt c : ℚ) (pl : Bool),
        c + dt * speed < (fc : ℚ) - 1 →
          animateTick fc speed dt ⟨c, pl⟩ = ⟨c + dt * speed, pl⟩)
    ∧ animateTick 60 1 (1 / 5) ⟨589 / 10, true⟩ = ⟨59, false⟩ := by
  refine ⟨?_, ?_, ?_⟩
  · intro fc speed dt c pl h
    simp only [animateTick]
    rw [if_pos (le_of_lt h)]
  · intro fc speed dt c pl h
    simp only [animateTick]
    rw [if_neg (not_le.mpr h)]
  · have h : ((60 : ℕ) : ℚ) - 1 ≤ 589 / 10 + 1 / 5 * 1 := by norm_num
    simp only [animateTick]
    rw [if_pos h]
    norm_num

theorem eval_tick_bound : ((60 : ℕ) : ℚ) - 1 < 589 / 10 + 1 / 5 * 1 := by norm_num

/-- Witness for `playback_clamp_stop` at the claim's own numbers. -/
theorem playback_clamp_stop_witness :
    (((60 : ℕ) : ℚ) - 1 < 589 / 10 + 1 / 5 * 1) ∧
      animateTick 60 1 (1 / 5) ⟨589 / 10, true⟩ = ⟨((60 : ℕ) : ℚ) - 1, false⟩ :=
  ⟨eval_tick_bound, playback_clamp_stop.1 60 1 (1 / 5) (589 / 10) true eval_tick_bound⟩

/-- **C5** (counterexample): a driver whose current-frame position is
(0, 0) is dropped from the interpolation output entirely — the render
guard `currentPos.x && currentPos.y` treats the coordinate 0 as falsy — so
with Frame[i] at (0,0) and Frame[i+1] at (10,10) nothing is displayed at
fractional cursor 0.5, rather than the claimed (5,5). -/
theorem interpolation_at_origin_dropped_cx :
    allInterpolated
        ⟨0, 1, 0, [(some "HAM", ⟨some 0, some 0, some 1, none, none, 1⟩)]⟩
        ⟨1, 1, 0, [(some "HAM", ⟨some 10, some 10, some 1, none, none, 1⟩)]⟩
        (1 / 2) = [] := by
  simp [allInterpolated, truthy]

/-- **C5** (amended): for a driver at a position with nonzero coordinates
in both frames — (10,10) in Frame[i] and (20,20) in Frame[i+1] — the
interpolation engine at fractional cursor 0.5 displays the driver at
(15,15), the linear midpoint. -/
theorem interpolation_midpoint :
    allInterpolated
        ⟨0, 1, 0, [(some "HAM", ⟨some 10, some 10, some 1, none, none, 1⟩)]⟩
        ⟨1, 1, 0, [(some "HAM", ⟨some 20, some 20, some 1, none, none, 1⟩)]⟩
        (1 / 2) =
      [(some "HAM", ⟨some 15, some 15, some 1, none, none, 1⟩)] := by
  simp only [allInterpolated, truthy, getPos, List.filterMap_cons, List.filterMap_nil, lerp]
  norm_num

/-- **C6** (counterexample): `lastKnownPositions` is written but never
read back into any frame — there is no carry-forward. In a chunk where
"VER" is sampled at second 0 and "HAM" only at second 1, the frame at
timestamp 0 has no entry for "HAM" even though "HAM" appears in the
immediately adjacent later frame. -/
theorem no_carry_forward_cx :
    (processChunkFrames [cVER, cHAM] 0).map
        (fun fr => (fr.cumulative_time, getPos fr.positions (some "HAM"))) =
      [(0, none), (1, some ⟨some 2, some 2, some 2, none, none, 1⟩)] := by
  simp [processChunkFrames, buildFrameMap, insertPoint, frameKey, Point.snapshot, setPos,
        getPos, cVER, cHAM, jsRound_zero, jsRound_one, frameLE]

/-- **C6** (amended): the synthesizer records each driver's last known
position as it processes samples, but that record is never copied into any
frame: a driver that appears in none of a chunk's samples is absent from
every frame of that chunk, even when known from an earlier chunk or
observed in a nearby later frame. -/
theorem absent_driver_absent_from_frames (pts : List Point) (off : ℚ) (d : Option String)
    (hd : ∀ p ∈ pts, p.driver ≠ d) :
    ∀ fr ∈ processChunkFrames pts off, getPos fr.positions d = none := by
  intro fr hfr
  rw [getPos_processChunkFrames pts off fr hfr d]
  exact lastSnap_eq_none pts off fr.cumulative_time d hd

theorem eval_wPts_no_ALO : ∀ p ∈ wPts, p.driver ≠ some "ALO" := by
  simp [wPts, wP1, wP2, wP3]

/-- Witness for `absent_driver_absent_from_frames`: "ALO" appears in no
sample of `wPts`, hence in no frame. -/
theorem absent_driver_absent_from_frames_witness :
    (∀ p ∈ wPts, p.driver ≠ some "ALO") ∧
      getPos wFrame.positions (some "ALO") = none :=
  ⟨eval_wPts_no_ALO,
   absent_driver_absent_from_frames wPts 0 (some "ALO") eval_wPts_no_ALO
     wFrame eval_wFrame_mem⟩

/-- **C7**: the standings output is computed from all drivers of the
current frame and never reads the selection, so it is identical under any
two selection states (two-run noninterference), and in particular
unchanged by toggling one driver; the selection only filters the
spatial-render output. -/
theorem standings_independent_of_selection (fr nx : Frame) (factor : ℚ)
    (reg s1 s2 : Finset (Option String)) (d : Option String) :
    (render fr nx factor s1).standings = (render fr nx factor s2).standings
    ∧ (render fr nx factor
          (uiStep ⟨reg, s1⟩ (UIEvent.toggle d)).selectedDrivers).standings =
        (render fr nx factor s1).standings
    ∧ (render fr nx factor s1).spatial =
        (allInterpolated fr nx factor).filter (fun e => decide (e.1 ∈ s1)) :=
  ⟨rfl, rfl, rfl⟩

/-- **C8**: once a chunk fetch fails — a transport error or a body-level
`error` field — the loop records an error (surfaced to the view), later
outcomes change nothing, and the frames accumulated from the chunks before
the failure are exactly preserved (and extend the initial frames). -/
theorem fetch_failure_halts_preserves_frames (st : IngestState)
    (good : List FetchOutcome) (bad : FetchOutcome) (rest : List FetchOutcome)
    (hst : st.error = none) (hgood : ∀ r ∈ good, chunkOk r) (hbad : chunkOk bad = false) :
    (runChunks st (good ++ bad :: rest)).frames = (runChunks st good).frames
    ∧ (runChunks st (good ++ bad :: rest)).error.isSome
    ∧ ∃ tl, (runChunks st good).frames = st.frames ++ tl := by
  have h1 : runChunks st (good ++ bad :: rest) =
      runChunks (stepChunk (runChunks st good) bad) rest := by
    rw [runChunks, List.foldl_append]
    rfl
  have hg : (runChunks st good).error = none := runChunks_ok_error_none good st hst hgood
  obtain ⟨hfr, hoff, herr⟩ := stepChunk_fail (runChunks st good) bad hg hbad
  have h2 : runChunks (stepChunk (runChunks st good) bad) rest =
      stepChunk (runChunks st good) bad :=
    runChunks_of_error_isSome _ rest herr
  refine ⟨?_, ?_, runChunks_frames_extend good st⟩
  · rw [h1, h2, hfr]
  · rw [h1, h2]
    exact herr

theorem eval_good_chunk_ok : ∀ r ∈ [(Except.ok ⟨wPts, none⟩ : FetchOutcome)], chunkOk r := by
  simp [chunkOk]

/-- Witness for `fetch_failure_halts_preserves_frames`: one good chunk,
then a transport failure, then one more (never-processed) chunk. -/
theorem fetch_failure_halts_preserves_frames_witness :
    (runChunks initialIngest
        [Except.ok ⟨wPts, none⟩, Except.error "network down", Except.ok ⟨wPts, none⟩]).frames =
      (runChunks initialIngest [Except.ok ⟨wPts, none⟩]).frames
    ∧ (runChunks initialIngest
        [Except.ok ⟨wPts, none⟩, Except.error "network down", Except.ok ⟨wPts, none⟩]).error.isSome :=
  ⟨(fetch_failure_halts_preserves_frames initialIngest [Except.ok ⟨wPts, none⟩]
      (Except.error "network down") [Except.ok ⟨wPts, none⟩] rfl eval_good_chunk_ok rfl).1,
   (fetch_failure_halts_preserves_frames initialIngest [Except.ok ⟨wPts, none⟩]
      (Except.error "network down") [Except.ok ⟨wPts, none⟩] rfl eval_good_chunk_ok rfl).2.1⟩

/-- **C9** (counterexample): a raw sample with no `driver` field is not
dropped: `processChunkFrames` stores its snapshot in the frame under the
absent-driver key, so it contributes to a frame. -/
theorem missing_driver_sample_kept_cx :
    (processChunkFrames [cNoDrv] 0).map (fun fr => getPos fr.positions none) =
      [some ⟨some 5, some 7, none, none, none, 1⟩] := by
  simp [processChunkFrames, buildFrameMap, insertPoint, frameKey, Point.snapshot,
        getPos, cNoDrv, jsRound_zero, frameLE]

/-- **C9** (amended): no sample is dropped for a missing `driver` — every
sample of a chunk, `driver` present or not, contributes a snapshot to the
frame at its quantized timestamp — while anything the interpolation engine
outputs (hence anything that renders a point) comes from an entry whose
`x` and `y` are both present, so a sample missing both coordinates is kept
in its frame but renders nothing. -/
theorem sample_retention_render_exclusion :
    (∀ (pts : List Point) (off : ℚ) (p : Point), p ∈ pts →
        ∃ fr ∈ processChunkFrames pts off, (getPos fr.positions p.driver).isSome)
    ∧ ∀ (fr nx : Frame) (factor : ℚ) (e : Option String × Snapshot),
        e ∈ allInterpolated fr nx factor →
        ∃ c ∈ fr.positions, c.1 = e.1 ∧ c.2.x ≠ none ∧ c.2.y ≠ none := by
  constructor
  · intro pts off p hp
    rcases (exists_frame_iff pts off (frameKey off p)).mpr ⟨p, hp, rfl⟩ with ⟨fr, hfr, hct⟩
    refine ⟨fr, hfr, ?_⟩
    rw [getPos_processChunkFrames pts off fr hfr p.driver, hct]
    exact lastSnap_isSome_of_mem pts off p hp
  · intro fr nx factor e he
    rcases List.mem_filterMap.mp he with ⟨c, hc, hce⟩
    by_cases hx : truthy c.2.x && truthy c.2.y
    · have hcond := hx
      rw [Bool.and_eq_true] at hx
      obtain ⟨hx1, hy1⟩ := hx
      refine ⟨c, hc, ?_, truthy_ne_none _ hx1, truthy_ne_none _ hy1⟩
      rw [if_pos hcond] at hce
      rcases hnp : getPos nx.positions c.1 with _ | np
      · rw [hnp] at hce
        dsimp only at hce
        obtain rfl := Option.some.inj hce
        rfl
      · rw [hnp] at hce
        dsimp only at hce
        by_cases h2 : truthy np.x && truthy np.y
        · rw [if_pos h2] at hce
          obtain rfl := Option.some.inj hce
          rfl
        · rw [if_neg h2] at hce
          obtain rfl := Option.some.inj hce
          rfl
    · rw [if_neg hx] at hce
      exact absurd hce (by simp)

theorem eval_cNoDrv_mem : cNoDrv ∈ [cNoDrv] := List.mem_cons_self _ _

/-- Witness for `sample_retention_render_exclusion` at the driverless
sample `cNoDrv`. -/
theorem sample_retention_render_exclusion_witness :
    cNoDrv ∈ [cNoDrv] ∧
      ∃ fr ∈ processChunkFrames [cNoDrv] 0, (getPos fr.positions cNoDrv.driver).isSome :=
  ⟨eval_cNoDrv_mem,
   sample_retention_render_exclusion.1 [cNoDrv] 0 cNoDrv eval_cNoDrv_mem⟩

/-- **C10** (implicit): every processed chunk rebuilds `allDrivers` as a
fresh `Set`, which re-fires the `[allDrivers]` effect and resets
`selectedDrivers` to the full registry — even for a chunk introducing no
new driver code — so any narrowing the user made is discarded and a
previously hidden driver becomes visible again. -/
theorem chunk_update_resets_selection (st : UIState) (pts : List Point)
    (d : Option String) (hd : d ∈ st.allDrivers) (hhid : d ∉ st.selectedDrivers) :
    d ∈ (uiStep st (UIEvent.chunk pts)).selectedDrivers
    ∧ (uiStep st (UIEvent.chunk pts)).selectedDrivers =
        (uiStep st (UIEvent.chunk pts)).allDrivers :=
  ⟨Finset.mem_union_left _ hd, rfl⟩

theorem eval_HAM_hidden :
    (some "HAM" ∈ ({some "HAM"} : Finset (Option String))) ∧
      some "HAM" ∉ (∅ : Finset (Option String)) := by
  simp

/-- Witness for `chunk_update_resets_selection`: a registry containing
"HAM" with an empty selection (after deselect-all) and a chunk with no
samples at all — the chunk still resets the selection to the registry. -/
theorem chunk_update_resets_selection_witness :
    some "HAM" ∈ (uiStep ⟨{some "HAM"}, ∅⟩ (UIEvent.chunk [])).selectedDrivers ∧
      (uiStep ⟨{some "HAM"}, ∅⟩ (UIEvent.chunk [])).selectedDrivers =
        (uiStep ⟨{some "HAM"}, ∅⟩ (UIEvent.chunk [])).allDrivers :=
  chunk_update_resets_selection ⟨{some "HAM"}, ∅⟩ [] (some "HAM")
    eval_HAM_hidden.1 eval_HAM_hidden.2

end F1
